import Mathlib

/-!
Shallow embedding of the employee-table utility in src/hw2_1.py and
verification of its specification.

Modelling conventions:
  * A Python dict with string keys is an association list in insertion
    order (type PyDict below).  Lookup takes the first entry with the key,
    which agrees with Python dicts because construction keeps keys unique
    whenever the source does.
  * The file system is a function from file name to the optional list of
    records (each record is the list of fields of one line, already split
    at the semicolon delimiter, as csv.reader would produce them).
  * Python int(s) is modelled by parseInt: an optional sign followed by at
    least one decimal digit.  (CPython additionally tolerates surrounding
    whitespace and underscore digit separators; the specification only
    speaks of decimal integer strings, so that fringe is not modelled.)
  * Python round(x, 2) on the exact value is round-half-to-even to a
    multiple of 1/100, modelled over the rationals (the source computes
    with IEEE doubles; the exact-rational reading is the documented
    rounding rule, as the specification permits).
  * Exceptions are the explicit error results of PyError; an uncaught
    exception in the source is an error value propagated by Except.
-/

set_option maxHeartbeats 1000000

/-- Python dict with string keys, kept in insertion order. -/
abbrev PyDict (α : Type) := List (String × α)

/-- Keys of a dict in insertion order (Python list(d.keys())). -/
def dictKeys {α : Type} (d : PyDict α) : List String := d.map Prod.fst

/-- Lookup d[k]: the value of the first entry whose key is k. -/
def dictGet? {α : Type} : PyDict α → String → Option α
  | [], _ => none
  | p :: rest, k => if p.1 = k then some p.2 else dictGet? rest k

/-- Assignment d[k] = v: overwrite in place if the key exists, else append. -/
def dictInsert {α : Type} (d : PyDict α) (k : String) (v : α) : PyDict α :=
  if k ∈ dictKeys d then d.map (fun p => if p.1 = k then (k, v) else p)
  else d ++ [(k, v)]

/-- In-place update of the value stored at key k (d[k].append / d[k].add).
The source only ever updates keys that are present, so the missing-key
KeyError of Python is unreachable and not modelled. -/
def dictModify {α : Type} (d : PyDict α) (k : String) (f : α → α) : PyDict α :=
  d.map (fun p => if p.1 = k then (p.1, f p.2) else p)

/-- Decimal digits of a numeral, most significant first, as a natural. -/
def parseDigits (cs : List Char) : Option Nat :=
  if cs = [] then none
  else if cs.all Char.isDigit then
    some (cs.foldl (fun acc c => acc * 10 + (c.toNat - 48)) 0)
  else none

/-- Model of Python int(s) on a string: optional sign, then decimal digits. -/
def parseInt (s : String) : Option Int :=
  match s.toList with
  | [] => none
  | c :: rest =>
    if c = '-' then (parseDigits rest).map (fun m => -(m : Int))
    else if c = '+' then (parseDigits rest).map (fun m => (m : Int))
    else (parseDigits (c :: rest)).map (fun m => (m : Int))

/-- Round a rational to the nearest integer, ties to the even neighbour
(the rule of Python round on exact values). -/
def roundHalfEven (q : ℚ) : ℤ :=
  if q - ⌊q⌋ < 1/2 then ⌊q⌋
  else if 1/2 < q - ⌊q⌋ then ⌊q⌋ + 1
  else if ⌊q⌋ % 2 = 0 then ⌊q⌋ else ⌊q⌋ + 1

/-- Model of Python round(x, 2): round to the nearest multiple of 1/100,
ties to even. -/
def round2 (q : ℚ) : ℚ := (roundHalfEven (q * 100) : ℚ) / 100

/-- Lexicographic comparison of two strings as their code-point sequences:
the order Python uses to compare strings. -/
def charListLe : List Char → List Char → Bool
  | [], _ => true
  | _ :: _, [] => false
  | a :: as, b :: bs =>
    if a.toNat < b.toNat then true
    else if a.toNat = b.toNat then charListLe as bs
    else false

/-- Python string comparison a <= b (code-point lexicographic). -/
def pyLe (a b : String) : Prop := charListLe a.toList b.toList = true

instance pyLe.instDecidable : DecidableRel pyLe := fun a b =>
  inferInstanceAs (Decidable (charListLe a.toList b.toList = true))

/-- Python sorted(set(xs)) for strings: the distinct values arranged in
increasing code-point lexicographic order (the output of sorted() is the
unique such arrangement, so any correct sort embeds it). -/
def sortedSet (xs : List String) : List String :=
  xs.dedup.insertionSort pyLe

/-- Python set insertion, modelled on a duplicate-free list: s.add(v). -/
def setAdd (s : List String) (v : String) : List String :=
  if v ∈ s then s else s ++ [v]

/-- Errors of the source program (uncaught Python exceptions). -/
inductive PyError
  /-- FileNotFoundError re-raised by get_data with a message naming the file. -/
  | fileNotFound (msg : String)
  /-- IndexError: a sequence index out of range. -/
  | indexError
  /-- StopIteration: next(reader) on a file with no records. -/
  | stopIteration
  /-- ValueError of int(): a salary cell is not numeric. -/
  | valueErrorParse
  /-- ValueError of min()/max() on an empty sequence. -/
  | valueErrorEmptySeq
  deriving DecidableEq

/-- One record of the input file: the fields of one line. -/
abbrev Record := List String

/-- Column-oriented table: the result type of get_data. -/
abbrev Table := PyDict (List String)

/-- Inner loop of get_data over one record: for i, tag in enumerate(tags):
content[tag].append(row[i]).  Fails (IndexError) when the row is shorter
than the header. -/
def processRowAux (row : Record) : List String → Nat → Table → Option Table
  | [], _, c => some c
  | tag :: rest, i, c =>
    match row[i]? with
    | none => none
    | some v => processRowAux row rest (i + 1) (dictModify c tag (fun l => l ++ [v]))

/-- Loop of get_data over the data records. -/
def fillRows (tags : List String) : List Record → Table → Option Table
  | [], c => some c
  | row :: rest, c =>
    match processRowAux row tags 0 c with
    | none => none
    | some c2 => fillRows tags rest c2

/-- Pure core of get_data: header row and data records to a column table.
content = tag-to-empty-list dict, then every record is appended cell by
cell. -/
def get_data_content (tags : List String) (rows : List Record) : Option Table :=
  fillRows tags rows (tags.foldl (fun d t => dictInsert d t []) [])

/-- Test of Python file.endswith of the .csv suffix, on code points. -/
def endsWithCsv (file : String) : Bool :=
  (".csv".toList).isSuffixOf file.toList

/-- Name resolution of get_data: a .csv suffix is appended when absent. -/
def resolveCsvName (file : String) : String :=
  if endsWithCsv file then file else file ++ ".csv"

/-- Message of the FileNotFoundError re-raised by get_data. -/
def notFoundMsg (file : String) : String :=
  "Нет файла с именем " ++ file ++ " в локальной директории"

/-- Embedding of get_data: resolve the name, read the records, build the
column table. -/
def get_data (fs : String → Option (List Record)) (file : String) :
    Except PyError Table :=
  let f := resolveCsvName file
  match fs f with
  | none => .error (.fileNotFound (notFoundMsg f))
  | some records =>
    match records with
    | [] => .error .stopIteration
    | tags :: rows =>
      match get_data_content tags rows with
      | none => .error .indexError
      | some c => .ok c

/-- Loop of get_teams: for department, division in zip(...):
out[department].add(division). -/
def fillTeams : List (String × String) → PyDict (List String) → PyDict (List String)
  | [], acc => acc
  | (d, t) :: rest, acc => fillTeams rest (dictModify acc d (fun s => setAdd s t))

/-- Core of get_teams on a loaded table: group the values of the third column
under the values of the second column. -/
def get_teams_core (content : Table) : Except PyError (PyDict (List String)) :=
  match (dictKeys content)[1]? with
  | none => .error .indexError
  | some dk =>
    match (dictKeys content)[2]? with
    | none => .error .indexError
    | some tk =>
      let departments := (dictGet? content dk).getD []
      let divisions := (dictGet? content tk).getD []
      let departments_unique := sortedSet departments
      let out := departments_unique.foldl (fun d k => dictInsert d k []) []
      .ok (fillTeams (departments.zip divisions) out)

/-- Embedding of get_teams. -/
def get_teams (fs : String → Option (List Record)) (file : String) :
    Except PyError (PyDict (List String)) :=
  (get_data fs file).bind get_teams_core

/-- Per-department record of the salary report. -/
structure DeptReport where
  min_salary : Int
  max_salary : Int
  head_count : Nat
  mean_salary : ℚ
  deriving DecidableEq

/-- Loop of get_reports filling the accumulator: for department, salary in
zip(...): salaries_by_departments[department].append(int(salary)).  The
int() conversion fails on a non-numeric cell and aborts the loop. -/
def fillSalaries : List (String × String) → PyDict (List Int) → Option (PyDict (List Int))
  | [], acc => some acc
  | (d, s) :: rest, acc =>
    match parseInt s with
    | none => none
    | some v => fillSalaries rest (dictModify acc d (fun l => l ++ [v]))

/-- Aggregation of the salary list of one department: min, max, len and the
rounded mean.  Python min()/max() fail on an empty sequence. -/
def aggregate : List Int → Option DeptReport
  | [] => none
  | a :: t =>
    some { min_salary := t.foldl min a
           max_salary := t.foldl max a
           head_count := (a :: t).length
           mean_salary := round2 ((((a :: t).foldl (fun x y => x + y) 0 : Int) : ℚ) /
             (((a :: t).length : Nat) : ℚ)) }

/-- Report-building loop of get_reports over the items of the accumulator. -/
def buildReport : PyDict (List Int) → Except PyError (PyDict DeptReport)
  | [] => .ok []
  | (d, ss) :: rest =>
    match aggregate ss with
    | none => .error .valueErrorEmptySeq
    | some rep => (buildReport rest).map (fun t => (d, rep) :: t)

/-- Core of get_reports on a loaded table: group the parsed values of the last
column under the values of the second column, then aggregate per department. -/
def get_reports_core (content : Table) : Except PyError (PyDict DeptReport) :=
  match (dictKeys content)[1]? with
  | none => .error .indexError
  | some dk =>
    match (dictKeys content).getLast? with
    | none => .error .indexError
    | some sk =>
      let departments := (dictGet? content dk).getD []
      let departments_unique := sortedSet departments
      let salaries := (dictGet? content sk).getD []
      let init := departments_unique.foldl (fun d k => dictInsert d k []) []
      match fillSalaries (departments.zip salaries) init with
      | none => .error .valueErrorParse
      | some sbd => buildReport sbd

/-- Embedding of get_reports. -/
def get_reports (fs : String → Option (List Record)) (file : String) :
    Except PyError (PyDict DeptReport) :=
  (get_data fs file).bind get_reports_core

/-- Cell of the exported report file, before stringification. -/
inductive Cell
  | s (v : String)
  | i (v : Int)
  | n (v : Nat)
  | q (v : ℚ)
  deriving DecidableEq

/-- Header row written by make_report_csv (label typo as in the source). -/
def reportHeaderRow : List Cell :=
  [.s "Департамент", .s "Минимальная зарплата", .s "Максимальная зарплата",
   .s "Численность", .s "Средняя запрлата"]

/-- Data row written by make_report_csv for one department:
[department] + list(data.values()), in the insertion order of the record
literal in get_reports. -/
def reportRowOf (p : String × DeptReport) : List Cell :=
  [.s p.1, .i p.2.min_salary, .i p.2.max_salary, .n p.2.head_count, .q p.2.mean_salary]

/-- Loop of make_report_csv writing one row per report entry. -/
def writeReportRows : PyDict DeptReport → List (List Cell)
  | [] => []
  | p :: rest => reportRowOf p :: writeReportRows rest

/-- Rows written by make_report_csv: the header row, then one row per
department of the report, in report order. -/
def make_report_rows (report : PyDict DeptReport) : List (List Cell) :=
  reportHeaderRow :: writeReportRows report

/-- Cells contributed by one record to the column of name k, when the
header is tags and the record is indexed from position i: the cells of the record
at every header position bearing the name k, in position order. -/
def rowCellsAux : List String → Nat → String → Record → List String
  | [], _, _, _ => []
  | t :: ts, i, k, row =>
    if t = k then row.getD i "" :: rowCellsAux ts (i + 1) k row
    else rowCellsAux ts (i + 1) k row

/-- Cells contributed by one record to the column of name k. -/
def rowCells (tags : List String) (k : String) (row : Record) : List String :=
  rowCellsAux tags 0 k row

/-- Example table of the specification: three employees in two departments. -/
def exampleTable : Table :=
  [("id", ["1", "2", "3"]), ("dept", ["A", "A", "B"]),
   ("team", ["X", "Y", "Z"]), ("salary", ["100", "300", "200"])]

/-- Report of the example table, as computed by the source. -/
def exampleReport : PyDict DeptReport :=
  [("A", ⟨100, 300, 2, 200⟩), ("B", ⟨200, 200, 1, 200⟩)]

/-- Example table with a non-numeric salary cell. -/
def badTable : Table :=
  [("id", ["1"]), ("dept", ["A"]), ("team", ["X"]), ("salary", ["abc"])]

/-- Parsed salaries of the rows carrying department d: the zip of the
department and salary columns, filtered to d, each salary parsed. -/
def deptSalaries (deps sals : List String) (d : String) : List Int :=
  ((deps.zip sals).filter (fun p => p.1 == d)).filterMap (fun p => parseInt p.2)

/-! Dictionary lemmas. -/

theorem dictKeys_map_keyval {α β : Type} (d : PyDict α) (F : String → α → β) :
    dictKeys (d.map (fun p => (p.1, F p.1 p.2))) = dictKeys d := by
  simp [dictKeys, List.map_map, Function.comp]

theorem dictGet?_map_keyval {α β : Type} (d : PyDict α) (F : String → α → β) (k : String) :
    dictGet? (d.map (fun p => (p.1, F p.1 p.2))) k = (dictGet? d k).map (F k) := by
  induction d with
  | nil => rfl
  | cons p rest ih =>
    by_cases h : p.1 = k
    · subst h; simp [dictGet?]
    · simp [dictGet?, h, ih]

theorem dictModify_eq_map {α : Type} (d : PyDict α) (k : String) (f : α → α) :
    dictModify d k f = d.map (fun p => (p.1, if p.1 = k then f p.2 else p.2)) := by
  unfold dictModify
  apply List.map_congr_left
  intro p _
  by_cases h : p.1 = k <;> simp [h]

theorem dictGet?_keymap (ks : List String) {α : Type} (F : String → α) (k : String) :
    dictGet? (ks.map (fun j => (j, F j))) k = if k ∈ ks then some (F k) else none := by
  induction ks with
  | nil => simp [dictGet?]
  | cons j rest ih =>
    by_cases h : j = k
    · subst h; simp [dictGet?]
    · simp [dictGet?, h, ih, Ne.symm h]


theorem dictKeys_append {α : Type} (d e : PyDict α) :
    dictKeys (d ++ e) = dictKeys d ++ dictKeys e := by
  simp [dictKeys]

theorem dictGet?_append_right {α : Type} (d e : PyDict α) (k : String)
    (h : k ∉ dictKeys d) : dictGet? (d ++ e) k = dictGet? e k := by
  induction d with
  | nil => rfl
  | cons p rest ih =>
    simp only [dictKeys, List.map_cons, List.mem_cons, not_or] at h
    have hp : p.1 ≠ k := fun he => h.1 he.symm
    simp only [List.cons_append, dictGet?, if_neg hp]
    exact ih (by simpa [dictKeys] using h.2)

theorem dictGet?_overwrite_self {α : Type} (d : PyDict α) (k : String) (v : α)
    (h : k ∈ dictKeys d) :
    dictGet? (d.map (fun p => if p.1 = k then (k, v) else p)) k = some v := by
  induction d with
  | nil => simp [dictKeys] at h
  | cons p rest ih =>
    by_cases hp : p.1 = k
    · simp [dictGet?, hp]
    · have hr : k ∈ dictKeys rest := by
        simp only [dictKeys, List.map_cons, List.mem_cons] at h
        rcases h with h | h
        · exact absurd h.symm hp
        · simpa [dictKeys] using h
      simp [dictGet?, hp, ih hr]

theorem dictGet?_overwrite_ne {α : Type} (d : PyDict α) (j k : String) (v : α)
    (h : k ≠ j) :
    dictGet? (d.map (fun p => if p.1 = j then (j, v) else p)) k = dictGet? d k := by
  induction d with
  | nil => rfl
  | cons p rest ih =>
    by_cases hp : p.1 = j
    · have hpk : p.1 ≠ k := by rw [hp]; exact fun he => h he.symm
      simp [dictGet?, hp, hpk, Ne.symm h, ih]
    · simp [dictGet?, hp, ih]

theorem dictGet?_eq_none_of_not_mem {α : Type} (d : PyDict α) (k : String)
    (h : k ∉ dictKeys d) : dictGet? d k = none := by
  induction d with
  | nil => rfl
  | cons p rest ih =>
    simp only [dictKeys, List.map_cons, List.mem_cons, not_or] at h
    have hp : p.1 ≠ k := fun he => h.1 he.symm
    simp only [dictGet?, if_neg hp]
    exact ih (by simpa [dictKeys] using h.2)

theorem dictGet?_append_left {α : Type} (d e : PyDict α) (k : String)
    (h : k ∈ dictKeys d) : dictGet? (d ++ e) k = dictGet? d k := by
  induction d with
  | nil => simp [dictKeys] at h
  | cons p rest ih =>
    by_cases hp : p.1 = k
    · simp [dictGet?, hp]
    · have hr : k ∈ dictKeys rest := by
        simp only [dictKeys, List.map_cons, List.mem_cons] at h
        rcases h with h | h
        · exact absurd h.symm hp
        · simpa [dictKeys] using h
      simp [dictGet?, hp, ih hr]

theorem dictGet?_insert_self {α : Type} (d : PyDict α) (k : String) (v : α) :
    dictGet? (dictInsert d k v) k = some v := by
  unfold dictInsert
  by_cases hm : k ∈ dictKeys d
  · simp [hm, dictGet?_overwrite_self d k v hm]
  · simp only [hm, if_false]
    rw [dictGet?_append_right d [(k, v)] k hm]
    simp [dictGet?]

theorem dictGet?_insert_ne {α : Type} (d : PyDict α) (j k : String) (v : α)
    (h : k ≠ j) : dictGet? (dictInsert d j v) k = dictGet? d k := by
  unfold dictInsert
  by_cases hm : j ∈ dictKeys d
  · simp [hm, dictGet?_overwrite_ne d j k v h]
  · simp only [hm, if_false]
    by_cases hk : k ∈ dictKeys d
    · rw [dictGet?_append_left d [(j, v)] k hk]
    · rw [dictGet?_append_right d [(j, v)] k hk,
        dictGet?_eq_none_of_not_mem d k hk]
      simp [dictGet?, Ne.symm h]

theorem foldl_insert_get {α : Type} (v0 : α) :
    ∀ (ks : List String) (d : PyDict α) (k : String),
      dictGet? (ks.foldl (fun a t => dictInsert a t v0) d) k =
        if k ∈ ks then some v0 else dictGet? d k := by
  intro ks
  induction ks with
  | nil => intro d k; simp
  | cons t rest ih =>
    intro d k
    simp only [List.foldl_cons, ih]
    by_cases hk : k ∈ rest
    · simp [hk]
    · by_cases he : k = t
      · subst he
        simp [hk, dictGet?_insert_self]
      · simp [hk, he, dictGet?_insert_ne d t k v0 he]

theorem dictKeys_insert_of_not_mem {α : Type} (d : PyDict α) (k : String) (v : α)
    (h : k ∉ dictKeys d) : dictInsert d k v = d ++ [(k, v)] := by
  simp [dictInsert, h]

theorem foldl_insert_fresh {α : Type} (v0 : α) :
    ∀ (ks : List String) (d : PyDict α), (∀ t ∈ ks, t ∉ dictKeys d) → ks.Nodup →
      ks.foldl (fun a t => dictInsert a t v0) d = d ++ ks.map (fun k => (k, v0)) := by
  intro ks
  induction ks with
  | nil => intro d _ _; simp
  | cons t rest ih =>
    intro d hfresh hnd
    have ht : t ∉ dictKeys d := hfresh t (by simp)
    have hstep : dictInsert d t v0 = d ++ [(t, v0)] := dictKeys_insert_of_not_mem d t v0 ht
    simp only [List.nodup_cons] at hnd
    have hfresh2 : ∀ u ∈ rest, u ∉ dictKeys (d ++ [(t, v0)]) := by
      intro u hu
      have h1 : u ∉ dictKeys d := hfresh u (by simp [hu])
      have h2 : u ≠ t := fun he => hnd.1 (he ▸ hu)
      rw [dictKeys_append]
      intro hc
      rcases List.mem_append.mp hc with hc | hc
      · exact h1 hc
      · simp [dictKeys] at hc
        exact h2 hc
    simp only [List.foldl_cons, hstep, ih (d ++ [(t, v0)]) hfresh2 hnd.2,
      List.append_assoc, List.map_cons, List.singleton_append]

theorem dictGet?_isSome_of_mem {α : Type} (d : PyDict α) (k : String)
    (h : k ∈ dictKeys d) : ∃ v, dictGet? d k = some v := by
  induction d with
  | nil => simp [dictKeys] at h
  | cons p rest ih =>
    by_cases hp : p.1 = k
    · exact ⟨p.2, by simp [dictGet?, hp]⟩
    · simp only [dictKeys, List.map_cons, List.mem_cons] at h
      rcases h with h | h
      · exact absurd h.symm hp
      · rcases ih (by simpa [dictKeys] using h) with ⟨v, hv⟩
        exact ⟨v, by simp [dictGet?, hp, hv]⟩

/-! Lemmas about sorted(set(...)). -/

theorem charListLe_total : ∀ as bs, charListLe as bs = true ∨ charListLe bs as = true := by
  intro as
  induction as with
  | nil => intro bs; left; rfl
  | cons a at2 ih =>
    intro bs
    cases bs with
    | nil => right; rfl
    | cons b bt =>
      by_cases h1 : a.toNat < b.toNat
      · left
        simp [charListLe, h1]
      · by_cases h2 : a.toNat = b.toNat
        · rcases ih bt with h | h
          · left
            simp [charListLe, h1, h2, h]
          · right
            have hnlt : ¬ b.toNat < a.toNat := by omega
            simp [charListLe, hnlt, h2.symm, h]
        · right
          have h3 : b.toNat < a.toNat := by omega
          simp [charListLe, h3]

theorem charListLe_trans : ∀ as bs cs, charListLe as bs = true →
    charListLe bs cs = true → charListLe as cs = true := by
  intro as
  induction as with
  | nil => intro bs cs _ _; rfl
  | cons a at2 ih =>
    intro bs cs h1 h2
    cases bs with
    | nil => simp [charListLe] at h1
    | cons b bt =>
      cases cs with
      | nil => simp [charListLe] at h2
      | cons c ct =>
        by_cases hab : a.toNat < b.toNat
        · by_cases hbc : b.toNat < c.toNat
          · have hl : a.toNat < c.toNat := by omega
            simp [charListLe, hl]
          · by_cases hbc2 : b.toNat = c.toNat
            · have hl : a.toNat < c.toNat := by omega
              simp [charListLe, hl]
            · simp [charListLe, hbc, hbc2] at h2
        · by_cases hab2 : a.toNat = b.toNat
          · simp only [charListLe, if_neg hab, if_pos hab2] at h1
            by_cases hbc : b.toNat < c.toNat
            · have hl : a.toNat < c.toNat := by omega
              simp [charListLe, hl]
            · by_cases hbc2 : b.toNat = c.toNat
              · simp only [charListLe, if_neg hbc, if_pos hbc2] at h2
                have hac : a.toNat = c.toNat := by omega
                have hnlt : ¬ a.toNat < c.toNat := by omega
                simp [charListLe, hnlt, hac, ih bt ct h1 h2]
              · simp [charListLe, hbc, hbc2] at h2
          · simp [charListLe, hab, hab2] at h1

theorem sortedSet_perm_dedup (xs : List String) : (sortedSet xs).Perm xs.dedup :=
  List.perm_insertionSort pyLe xs.dedup

theorem mem_sortedSet (xs : List String) (k : String) :
    k ∈ sortedSet xs ↔ k ∈ xs := by
  rw [(sortedSet_perm_dedup xs).mem_iff]
  exact List.mem_dedup

theorem nodup_sortedSet (xs : List String) : (sortedSet xs).Nodup :=
  ((sortedSet_perm_dedup xs).nodup_iff).mpr (List.nodup_dedup xs)

theorem sortedSet_sorted_le (xs : List String) : (sortedSet xs).Sorted pyLe := by
  have htotal : ∀ a b : String, pyLe a b ∨ pyLe b a := fun a b =>
    charListLe_total a.toList b.toList
  have htrans : ∀ a b c : String, pyLe a b → pyLe b c → pyLe a c := fun a b c =>
    charListLe_trans a.toList b.toList c.toList
  exact @List.sorted_insertionSort String pyLe pyLe.instDecidable ⟨htotal⟩ ⟨htrans⟩ xs.dedup

theorem sortedSet_sorted_strict (xs : List String) :
    (sortedSet xs).Sorted (fun a b => pyLe a b ∧ a ≠ b) := by
  have h1 := sortedSet_sorted_le xs
  have h2 : (sortedSet xs).Pairwise (fun a b => a ≠ b) := nodup_sortedSet xs
  exact h1.and h2

/-! Lemmas about rounding. -/

theorem roundHalfEven_intCast (n : ℤ) : roundHalfEven (n : ℚ) = n := by
  unfold roundHalfEven
  rw [Int.floor_intCast]
  norm_num

theorem le_roundHalfEven (m : ℤ) (q : ℚ) (h : (m : ℚ) ≤ q) :
    m ≤ roundHalfEven q := by
  have hf : m ≤ ⌊q⌋ := Int.le_floor.mpr h
  unfold roundHalfEven
  split_ifs <;> omega

theorem roundHalfEven_le (M : ℤ) (q : ℚ) (h : q ≤ (M : ℚ)) :
    roundHalfEven q ≤ M := by
  have hf : ⌊q⌋ ≤ M := by
    have h2 := Int.floor_le_floor h
    simpa [Int.floor_intCast] using h2
  unfold roundHalfEven
  split_ifs with h1 h2 h3
  · exact hf
  · have hq : (⌊q⌋ : ℚ) < q := by
      have hfl := Int.floor_le q
      linarith
    have hlt : ⌊q⌋ < M := by exact_mod_cast lt_of_lt_of_le hq h
    omega
  · exact hf
  · have hq : (⌊q⌋ : ℚ) < q := by
      have hr : 1/2 ≤ q - ⌊q⌋ := le_of_not_lt h1
      linarith
    have hlt : ⌊q⌋ < M := by exact_mod_cast lt_of_lt_of_le hq h
    omega

theorem round2_intCast (n : ℤ) : round2 (n : ℚ) = n := by
  unfold round2
  have hc : ((n : ℚ) * 100) = ((n * 100 : ℤ) : ℚ) := by push_cast; ring
  rw [hc, roundHalfEven_intCast]
  push_cast
  field_simp

theorem le_round2 (m : ℤ) (q : ℚ) (h : (m : ℚ) ≤ q) : (m : ℚ) ≤ round2 q := by
  unfold round2
  have h1 : ((m * 100 : ℤ) : ℚ) ≤ q * 100 := by
    push_cast
    nlinarith
  have h3 : ((m * 100 : ℤ) : ℚ) ≤ (roundHalfEven (q * 100) : ℚ) := by
    exact_mod_cast le_roundHalfEven _ _ h1
  rw [le_div_iff₀ (by norm_num : (0 : ℚ) < 100)]
  push_cast at h3
  linarith

theorem round2_le (M : ℤ) (q : ℚ) (h : q ≤ (M : ℚ)) : round2 q ≤ (M : ℚ) := by
  unfold round2
  have h1 : q * 100 ≤ ((M * 100 : ℤ) : ℚ) := by
    push_cast
    nlinarith
  have h3 : (roundHalfEven (q * 100) : ℚ) ≤ ((M * 100 : ℤ) : ℚ) := by
    exact_mod_cast roundHalfEven_le _ _ h1
  rw [div_le_iff₀ (by norm_num : (0 : ℚ) < 100)]
  push_cast at h3
  linarith

/-! Lemmas about the folds used by min, max and sum. -/

theorem foldl_min_le_init (l : List Int) (a : Int) : l.foldl min a ≤ a := by
  induction l generalizing a with
  | nil => simp
  | cons b t ih => exact le_trans (ih (min a b)) (min_le_left a b)

theorem foldl_min_le_mem (l : List Int) (a : Int) :
    ∀ x ∈ a :: l, l.foldl min a ≤ x := by
  induction l generalizing a with
  | nil =>
    intro x hx
    simp at hx
    simp [hx]
  | cons b t ih =>
    intro x hx
    rcases List.mem_cons.mp hx with rfl | hx
    · exact le_trans (foldl_min_le_init (b :: t) x) (le_refl x)
    · rcases List.mem_cons.mp hx with rfl | hx
      · exact le_trans (foldl_min_le_init t (min a x)) (min_le_right a x)
      · exact ih (min a b) x (List.mem_cons_of_mem _ hx)

theorem foldl_min_mem (l : List Int) (a : Int) : l.foldl min a ∈ a :: l := by
  induction l generalizing a with
  | nil => simp
  | cons b t ih =>
    simp only [List.foldl_cons]
    rcases List.mem_cons.mp (ih (min a b)) with he | ht
    · rcases le_total a b with hab | hab
      · rw [he, min_eq_left hab]
        exact List.mem_cons_self a _
      · rw [he, min_eq_right hab]
        exact List.mem_cons_of_mem _ (List.mem_cons_self b _)
    · exact List.mem_cons_of_mem _ (List.mem_cons_of_mem _ ht)

theorem le_foldl_max_init (l : List Int) (a : Int) : a ≤ l.foldl max a := by
  induction l generalizing a with
  | nil => simp
  | cons b t ih => exact le_trans (le_max_left a b) (ih (max a b))

theorem mem_le_foldl_max (l : List Int) (a : Int) :
    ∀ x ∈ a :: l, x ≤ l.foldl max a := by
  induction l generalizing a with
  | nil =>
    intro x hx
    simp at hx
    simp [hx]
  | cons b t ih =>
    intro x hx
    rcases List.mem_cons.mp hx with rfl | hx
    · exact le_foldl_max_init (b :: t) x
    · rcases List.mem_cons.mp hx with rfl | hx
      · exact le_trans (le_max_right a x) (le_foldl_max_init t (max a x))
      · exact ih (max a b) x (List.mem_cons_of_mem _ hx)

theorem foldl_max_mem (l : List Int) (a : Int) : l.foldl max a ∈ a :: l := by
  induction l generalizing a with
  | nil => simp
  | cons b t ih =>
    simp only [List.foldl_cons]
    rcases List.mem_cons.mp (ih (max a b)) with he | ht
    · rcases le_total a b with hab | hab
      · rw [he, max_eq_right hab]
        exact List.mem_cons_of_mem _ (List.mem_cons_self b _)
      · rw [he, max_eq_left hab]
        exact List.mem_cons_self a _
    · exact List.mem_cons_of_mem _ (List.mem_cons_of_mem _ ht)

theorem foldl_add_eq_sum (l : List Int) (a : Int) :
    l.foldl (fun x y => x + y) a = a + l.sum := by
  induction l generalizing a with
  | nil => simp
  | cons b t ih =>
    simp only [List.foldl_cons, ih, List.sum_cons]
    ring

/-! Lemmas about set insertion. -/

theorem mem_setAdd (s : List String) (v x : String) :
    x ∈ setAdd s v ↔ x ∈ s ∨ x = v := by
  unfold setAdd
  split_ifs with h
  · constructor
    · exact Or.inl
    · rintro (hx | rfl)
      · exact hx
      · exact h
  · simp

theorem nodup_setAdd (s : List String) (v : String) (h : s.Nodup) :
    (setAdd s v).Nodup := by
  unfold setAdd
  split_ifs with hm
  · exact h
  · simp [List.nodup_append, h, hm]

theorem mem_foldl_setAdd (ts : List String) :
    ∀ (s : List String) (x : String), x ∈ ts.foldl setAdd s ↔ x ∈ s ∨ x ∈ ts := by
  induction ts with
  | nil => intro s x; simp
  | cons t rest ih =>
    intro s x
    simp only [List.foldl_cons, ih, mem_setAdd, List.mem_cons]
    tauto

theorem nodup_foldl_setAdd (ts : List String) :
    ∀ s : List String, s.Nodup → (ts.foldl setAdd s).Nodup := by
  induction ts with
  | nil => intro s hs; exact hs
  | cons t rest ih => intro s hs; exact ih _ (nodup_setAdd s t hs)

/-! Characterization of the grouping loops. -/

theorem fillTeams_eq :
    ∀ (pairs : List (String × String)) (acc : PyDict (List String)),
      fillTeams pairs acc = acc.map (fun p => (p.1,
        (((pairs.filter (fun q => q.1 == p.1)).map Prod.snd).foldl setAdd p.2))) := by
  intro pairs
  induction pairs with
  | nil =>
    intro acc
    simp [fillTeams]
  | cons dt rest ih =>
    intro acc
    obtain ⟨d, t⟩ := dt
    show fillTeams rest (dictModify acc d (fun s => setAdd s t)) = _
    rw [ih, dictModify_eq_map, List.map_map]
    apply List.map_congr_left
    intro p _
    simp only [Function.comp_apply]
    by_cases hp : p.1 = d
    · simp [List.filter_cons, hp, List.foldl_cons]
    · have hne : (d == p.1) = false := by
        simp [beq_iff_eq]
        exact fun he => hp he.symm
      simp [List.filter_cons, hp, hne]

theorem fillSalaries_eq_of_some :
    ∀ (pairs : List (String × String)) (acc : PyDict (List Int)) (res : PyDict (List Int)),
      fillSalaries pairs acc = some res →
      res = acc.map (fun p => (p.1,
        p.2 ++ (pairs.filter (fun q => q.1 == p.1)).filterMap (fun q => parseInt q.2))) := by
  intro pairs
  induction pairs with
  | nil =>
    intro acc res h
    simp only [fillSalaries, Option.some_inj] at h
    subst h
    simp
  | cons ds rest ih =>
    intro acc res h
    obtain ⟨d, s⟩ := ds
    simp only [fillSalaries] at h
    cases hp : parseInt s with
    | none => rw [hp] at h; exact absurd h (by simp)
    | some v =>
      rw [hp] at h
      rw [ih _ _ h, dictModify_eq_map, List.map_map]
      apply List.map_congr_left
      intro p _
      simp only [Function.comp_apply]
      by_cases hpd : p.1 = d
      · simp [List.filter_cons, hpd, List.filterMap_cons, hp]
      · have hne : (d == p.1) = false := by
          simp [beq_iff_eq]
          exact fun he => hpd he.symm
        simp [List.filter_cons, hpd, hne]

theorem fillSalaries_isSome_iff :
    ∀ (pairs : List (String × String)) (acc : PyDict (List Int)),
      (fillSalaries pairs acc).isSome ↔ ∀ p ∈ pairs, (parseInt p.2).isSome := by
  intro pairs
  induction pairs with
  | nil => intro acc; simp [fillSalaries]
  | cons ds rest ih =>
    intro acc
    obtain ⟨d, s⟩ := ds
    cases hp : parseInt s with
    | none => simp [fillSalaries, hp]
    | some v => simp [fillSalaries, hp, ih]

theorem fillSalaries_none_iff (pairs : List (String × String)) (acc : PyDict (List Int)) :
    fillSalaries pairs acc = none ↔ ∃ p ∈ pairs, parseInt p.2 = none := by
  rw [← Option.not_isSome_iff_eq_none, fillSalaries_isSome_iff pairs acc]
  simp [Option.not_isSome_iff_eq_none]

/-! Lemmas about the aggregation. -/

theorem aggregate_isSome (l : List Int) : (aggregate l).isSome ↔ l ≠ [] := by
  cases l <;> simp [aggregate]

theorem aggregate_spec (l : List Int) (rep : DeptReport) (h : aggregate l = some rep) :
    rep.min_salary ∈ l ∧ (∀ x ∈ l, rep.min_salary ≤ x) ∧
    rep.max_salary ∈ l ∧ (∀ x ∈ l, x ≤ rep.max_salary) ∧
    rep.head_count = l.length ∧
    rep.mean_salary = round2 ((l.sum : ℚ) / (l.length : ℚ)) := by
  cases l with
  | nil => simp [aggregate] at h
  | cons a t =>
    simp only [aggregate, Option.some_inj] at h
    subst h
    refine ⟨foldl_min_mem t a, foldl_min_le_mem t a,
      foldl_max_mem t a, mem_le_foldl_max t a, rfl, ?_⟩
    show round2 _ = _
    rw [foldl_add_eq_sum]
    norm_num

theorem aggregate_bounds (l : List Int) (rep : DeptReport) (h : aggregate l = some rep) :
    (rep.min_salary : ℚ) ≤ rep.mean_salary ∧ rep.mean_salary ≤ (rep.max_salary : ℚ) := by
  obtain ⟨hmem, hmin, hmemx, hmax, hlen, hmean⟩ := aggregate_spec l rep h
  have hne : l ≠ [] := fun he => by rw [he] at hmem; exact List.not_mem_nil _ hmem
  have hlpos : 0 < l.length := List.length_pos.mpr hne
  have hlq : (0 : ℚ) < (l.length : ℚ) := by exact_mod_cast hlpos
  have h1 : (l.length : ℤ) * rep.min_salary ≤ l.sum := by
    have h0 := List.card_nsmul_le_sum l rep.min_salary hmin
    simpa [nsmul_eq_mul] using h0
  have h2 : l.sum ≤ (l.length : ℤ) * rep.max_salary := by
    have h0 := List.sum_le_card_nsmul l rep.max_salary hmax
    simpa [nsmul_eq_mul] using h0
  constructor
  · rw [hmean]
    apply le_round2
    rw [le_div_iff₀ hlq]
    have h1q : ((l.length : ℤ) : ℚ) * (rep.min_salary : ℚ) ≤ (l.sum : ℚ) := by
      exact_mod_cast h1
    push_cast at h1q ⊢
    linarith [mul_comm ((l.length : ℚ)) ((rep.min_salary : ℤ) : ℚ)]
  · rw [hmean]
    apply round2_le
    rw [div_le_iff₀ hlq]
    have h2q : (l.sum : ℚ) ≤ ((l.length : ℤ) : ℚ) * (rep.max_salary : ℚ) := by
      exact_mod_cast h2
    push_cast at h2q ⊢
    linarith [mul_comm ((l.length : ℚ)) ((rep.max_salary : ℤ) : ℚ)]

/-! Lemmas about the report-building loop. -/

theorem buildReport_isOk :
    ∀ sbd : PyDict (List Int), (∀ p ∈ sbd, p.2 ≠ []) →
      ∃ r, buildReport sbd = .ok r := by
  intro sbd
  induction sbd with
  | nil => intro _; exact ⟨[], rfl⟩
  | cons p rest ih =>
    intro h
    obtain ⟨d, ss⟩ := p
    have hne : ss ≠ [] := h (d, ss) (by simp)
    have hag : (aggregate ss).isSome := (aggregate_isSome ss).mpr hne
    obtain ⟨rep, hrep⟩ := Option.isSome_iff_exists.mp hag
    obtain ⟨t, ht⟩ := ih (fun q hq => h q (List.mem_cons_of_mem _ hq))
    exact ⟨(d, rep) :: t, by simp only [buildReport, hrep, ht]; rfl⟩

theorem buildReport_lookup :
    ∀ (sbd : PyDict (List Int)) (r : PyDict DeptReport), buildReport sbd = .ok r →
      dictKeys r = dictKeys sbd ∧
      ∀ k, dictGet? r k = (dictGet? sbd k).bind aggregate := by
  intro sbd
  induction sbd with
  | nil =>
    intro r h
    simp only [buildReport] at h
    cases h
    exact ⟨rfl, fun k => by simp [dictGet?]⟩
  | cons p rest ih =>
    intro r h
    obtain ⟨d, ss⟩ := p
    simp only [buildReport] at h
    cases hag : aggregate ss with
    | none => rw [hag] at h; exact absurd h (by simp)
    | some rep =>
      rw [hag] at h
      cases hrest : buildReport rest with
      | error e => rw [hrest] at h; exact absurd h (by simp [Except.map])
      | ok t =>
        rw [hrest] at h
        simp only [Except.map, Except.ok.injEq] at h
        subst h
        obtain ⟨hk, hget⟩ := ih t hrest
        constructor
        · have hk2 := hk
          simp only [dictKeys] at hk2 ⊢
          simp [hk2]
        · intro k
          by_cases hd : d = k
          · subst hd
            simp [dictGet?, hag]
          · simp [dictGet?, hd, hget k]

theorem buildReport_mem :
    ∀ (sbd : PyDict (List Int)) (r : PyDict DeptReport), buildReport sbd = .ok r →
      ∀ p ∈ r, ∃ l, (p.1, l) ∈ sbd ∧ aggregate l = some p.2 := by
  intro sbd
  induction sbd with
  | nil =>
    intro r h p hp
    simp only [buildReport] at h
    cases h
    simp at hp
  | cons q rest ih =>
    intro r h p hp
    obtain ⟨d, ss⟩ := q
    simp only [buildReport] at h
    cases hag : aggregate ss with
    | none => rw [hag] at h; exact absurd h (by simp)
    | some rep =>
      rw [hag] at h
      cases hrest : buildReport rest with
      | error e => rw [hrest] at h; exact absurd h (by simp [Except.map])
      | ok t =>
        rw [hrest] at h
        simp only [Except.map, Except.ok.injEq] at h
        subst h
        rcases List.mem_cons.mp hp with rfl | hp2
        · exact ⟨ss, by simp, hag⟩
        · obtain ⟨l, hl, hagl⟩ := ih t hrest p hp2
          exact ⟨l, List.mem_cons_of_mem _ hl, hagl⟩

theorem buildReport_headcounts :
    ∀ (sbd : PyDict (List Int)) (r : PyDict DeptReport), buildReport sbd = .ok r →
      r.map (fun p => p.2.head_count) = sbd.map (fun p => p.2.length) := by
  intro sbd
  induction sbd with
  | nil =>
    intro r h
    simp only [buildReport] at h
    cases h
    rfl
  | cons q rest ih =>
    intro r h
    obtain ⟨d, ss⟩ := q
    simp only [buildReport] at h
    cases hag : aggregate ss with
    | none => rw [hag] at h; exact absurd h (by simp)
    | some rep =>
      rw [hag] at h
      cases hrest : buildReport rest with
      | error e => rw [hrest] at h; exact absurd h (by simp [Except.map])
      | ok t =>
        rw [hrest] at h
        simp only [Except.map, Except.ok.injEq] at h
        subst h
        have hhc : rep.head_count = ss.length :=
          (aggregate_spec ss rep hag).2.2.2.2.1
        simp [hhc, ih t hrest]

theorem buildReport_ne_parseError :
    ∀ sbd : PyDict (List Int), buildReport sbd ≠ .error .valueErrorParse := by
  intro sbd
  induction sbd with
  | nil => simp [buildReport]
  | cons q rest ih =>
    obtain ⟨d, ss⟩ := q
    simp only [buildReport]
    cases hag : aggregate ss with
    | none => simp
    | some rep =>
      cases hrest : buildReport rest with
      | error e =>
        have he : e ≠ PyError.valueErrorParse := fun hc => ih (hc ▸ hrest)
        simp [Except.map, he]
      | ok t => simp [Except.map]

/-! Lemmas about filtering the zipped columns. -/

theorem length_filterMap_of_isSome {α β : Type} (l : List α) (f : α → Option β)
    (h : ∀ x ∈ l, (f x).isSome) : (l.filterMap f).length = l.length := by
  induction l with
  | nil => rfl
  | cons a t ih =>
    obtain ⟨b, hb⟩ := Option.isSome_iff_exists.mp (h a (by simp))
    rw [List.filterMap_cons]
    simp [hb, ih (fun x hx => h x (List.mem_cons_of_mem _ hx))]

theorem filter_zip_length_count (d : String) :
    ∀ (deps sals : List String), deps.length = sals.length →
      ((deps.zip sals).filter (fun p => p.1 == d)).length = deps.count d := by
  intro deps
  induction deps with
  | nil => intro sals _; simp
  | cons a dt ih =>
    intro sals h
    cases sals with
    | nil => simp at h
    | cons b st =>
      simp only [List.length_cons, Nat.succ_inj] at h
      by_cases hd : a = d
      · simp [List.zip_cons_cons, List.filter_cons, hd, ih st h, List.count_cons]
      · simp [List.zip_cons_cons, List.filter_cons, hd, ih st h, List.count_cons]

theorem filter_zip_ne_nil (d : String) (deps sals : List String)
    (h : deps.length = sals.length) (hd : d ∈ deps) :
    (deps.zip sals).filter (fun p => p.1 == d) ≠ [] := by
  intro he
  have hc := filter_zip_length_count d deps sals h
  rw [he] at hc
  simp only [List.length_nil] at hc
  have hpos : 0 < deps.count d := List.count_pos_iff.mpr hd
  omega

theorem mem_map_snd_filter (pairs : List (String × String)) (k x : String) :
    x ∈ ((pairs.filter (fun q => q.1 == k)).map Prod.snd) ↔ (k, x) ∈ pairs := by
  simp only [List.mem_map, List.mem_filter, beq_iff_eq]
  constructor
  · rintro ⟨p, ⟨hp, hk⟩, hx⟩
    have hpe : p = (k, x) := by
      obtain ⟨p1, p2⟩ := p
      simp at hk hx
      simp [hk, hx]
    rw [← hpe]
    exact hp
  · intro hm
    exact ⟨(k, x), ⟨hm, rfl⟩, rfl⟩

/-! Characterization of the inner loops of the loader. -/

theorem processRowAux_eq (row : Record) :
    ∀ (tags : List String) (i : Nat) (c : Table), i + tags.length ≤ row.length →
      processRowAux row tags i c =
        some (c.map (fun p => (p.1, p.2 ++ rowCellsAux tags i p.1 row))) := by
  intro tags
  induction tags with
  | nil =>
    intro i c h
    simp [processRowAux, rowCellsAux]
  | cons t ts ih =>
    intro i c h
    have hi : i < row.length := by
      simp only [List.length_cons] at h
      omega
    have hrow : row[i]? = some (row.getD i "") := by
      rw [List.getD_eq_getElem?_getD, List.getElem?_eq_getElem hi]
      rfl
    have hrec : (i + 1) + ts.length ≤ row.length := by
      simp only [List.length_cons] at h
      omega
    simp only [processRowAux, hrow]
    rw [ih (i + 1) _ hrec, dictModify_eq_map, List.map_map]
    congr 1
    apply List.map_congr_left
    intro p _
    simp only [Function.comp_apply]
    by_cases hp : p.1 = t
    · simp [rowCellsAux, hp, List.append_assoc]
    · have hne : t ≠ p.1 := fun he => hp he.symm
      simp [rowCellsAux, hp, hne]

theorem fillRows_eq (tags : List String) :
    ∀ (rows : List Record) (c : Table), (∀ row ∈ rows, tags.length ≤ row.length) →
      fillRows tags rows c =
        some (c.map (fun p =>
          (p.1, p.2 ++ rows.flatMap (fun row => rowCells tags p.1 row)))) := by
  intro rows
  induction rows with
  | nil =>
    intro c _
    simp [fillRows]
  | cons row rest ih =>
    intro c h
    have hrow : tags.length ≤ row.length := h row (by simp)
    have h0 : 0 + tags.length ≤ row.length := by omega
    simp only [fillRows, processRowAux_eq row tags 0 c h0]
    rw [ih _ (fun q hq => h q (List.mem_cons_of_mem _ hq)), List.map_map]
    congr 1
    apply List.map_congr_left
    intro p _
    simp [rowCells, List.flatMap_cons, List.append_assoc]

theorem get_data_content_eq (tags : List String) (rows : List Record)
    (h : ∀ row ∈ rows, tags.length ≤ row.length) :
    get_data_content tags rows =
      some ((tags.foldl (fun d t => dictInsert d t []) []).map (fun p =>
        (p.1, p.2 ++ rows.flatMap (fun row => rowCells tags p.1 row)))) := by
  unfold get_data_content
  exact fillRows_eq tags rows _ h

theorem get_data_content_lookup (tags : List String) (rows : List Record)
    (h : ∀ row ∈ rows, tags.length ≤ row.length) :
    ∃ c, get_data_content tags rows = some c ∧
      ∀ tag, dictGet? c tag =
        if tag ∈ tags then some (rows.flatMap (fun row => rowCells tags tag row))
        else none := by
  refine ⟨_, get_data_content_eq tags rows h, ?_⟩
  intro tag
  rw [dictGet?_map_keyval _ (fun k v => v ++ rows.flatMap (fun row => rowCells tags k row)) tag,
    foldl_insert_get]
  by_cases hm : tag ∈ tags
  · simp [hm]
  · simp [hm, dictGet?]

theorem rowCellsAux_of_not_mem (row : Record) (k : String) :
    ∀ (tags : List String) (i : Nat), k ∉ tags → rowCellsAux tags i k row = [] := by
  intro tags
  induction tags with
  | nil => intro i _; rfl
  | cons t ts ih =>
    intro i hk
    simp only [List.mem_cons, not_or] at hk
    have hne : t ≠ k := fun he => hk.1 he.symm
    simp [rowCellsAux, hne, ih (i + 1) hk.2]

theorem rowCellsAux_nodup (row : Record) :
    ∀ (tags : List String) (j : Nat), tags.Nodup →
      ∀ (i : Nat) (hi : i < tags.length),
        rowCellsAux tags j (tags.get ⟨i, hi⟩) row = [row.getD (j + i) ""] := by
  intro tags
  induction tags with
  | nil => intro j _ i hi; simp at hi
  | cons t ts ih =>
    intro j hnd i hi
    simp only [List.nodup_cons] at hnd
    cases i with
    | zero =>
      simp only [List.get, rowCellsAux, if_pos rfl]
      rw [rowCellsAux_of_not_mem row t ts (j + 1) hnd.1]
      simp
    | succ m =>
      have hm : m < ts.length := by
        simp only [List.length_cons] at hi
        omega
      have hget : (t :: ts).get ⟨m + 1, hi⟩ = ts.get ⟨m, hm⟩ := rfl
      rw [hget]
      have hne : t ≠ ts.get ⟨m, hm⟩ := by
        intro he
        exact hnd.1 (he ▸ List.get_mem ts m hm)
      simp only [rowCellsAux, if_neg hne]
      rw [ih (j + 1) hnd.2 m hm]
      congr 2
      omega

theorem flatMap_singleton_map {α β : Type} (l : List α) (f : α → β) :
    l.flatMap (fun x => [f x]) = l.map f := by
  induction l with
  | nil => rfl
  | cons a t ih => simp [List.flatMap_cons, ih]

/-! Characterization of the two cores. -/

theorem dictKeys_keymap {α : Type} (ks : List String) (F : String → α) :
    dictKeys (ks.map (fun k => (k, F k))) = ks := by
  show List.map Prod.fst (ks.map (fun k => (k, F k))) = ks
  rw [List.map_map, show (Prod.fst ∘ fun k : String => (k, F k)) = id from rfl,
    List.map_id]

theorem dictKeys_map_pres {α β : Type} (d : PyDict α) (f : String × α → String × β)
    (hf : ∀ p, (f p).1 = p.1) : dictKeys (d.map f) = dictKeys d := by
  induction d with
  | nil => rfl
  | cons p rest ih =>
    simp only [dictKeys, List.map_cons] at ih ⊢
    rw [hf p, ih]

theorem foldl_insert_nil_eq {α : Type} (v0 : α) (ks : List String) (hnd : ks.Nodup) :
    ks.foldl (fun d k => dictInsert d k v0) [] = ks.map (fun k => (k, v0)) := by
  have h := foldl_insert_fresh v0 ks [] (by intro t _; simp [dictKeys]) hnd
  simpa using h

theorem get_reports_core_eq (c : Table) (dk sk : String) (deps sals : List String)
    (hdk : (dictKeys c)[1]? = some dk) (hsk : (dictKeys c).getLast? = some sk)
    (hdc : dictGet? c dk = some deps) (hsc : dictGet? c sk = some sals) :
    get_reports_core c =
      match fillSalaries (deps.zip sals)
          ((sortedSet deps).foldl (fun d k => dictInsert d k []) []) with
      | none => .error .valueErrorParse
      | some sbd => buildReport sbd := by
  simp only [get_reports_core, hdk, hsk, hdc, hsc, Option.getD_some]

theorem get_teams_core_eq (c : Table) (dk tk : String) (deps divs : List String)
    (hdk : (dictKeys c)[1]? = some dk) (htk : (dictKeys c)[2]? = some tk)
    (hdc : dictGet? c dk = some deps) (htc : dictGet? c tk = some divs) :
    get_teams_core c = .ok ((sortedSet deps).map (fun k =>
      (k, (((deps.zip divs).filter (fun q => q.1 == k)).map Prod.snd).foldl setAdd []))) := by
  simp only [get_teams_core, hdk, htk, hdc, htc, Option.getD_some]
  rw [fillTeams_eq, foldl_insert_nil_eq ([] : List String) _ (nodup_sortedSet deps),
    List.map_map]
  congr 1

theorem get_reports_core_sbd (c : Table) (dk sk : String) (deps sals : List String)
    (hdk : (dictKeys c)[1]? = some dk) (hsk : (dictKeys c).getLast? = some sk)
    (hdc : dictGet? c dk = some deps) (hsc : dictGet? c sk = some sals)
    (hpz : ∀ p ∈ deps.zip sals, (parseInt p.2).isSome) :
    get_reports_core c =
      buildReport ((sortedSet deps).map (fun k => (k, deptSalaries deps sals k))) := by
  rw [get_reports_core_eq c dk sk deps sals hdk hsk hdc hsc,
    foldl_insert_nil_eq ([] : List Int) _ (nodup_sortedSet deps)]
  obtain ⟨res, hres⟩ := Option.isSome_iff_exists.mp
    ((fillSalaries_isSome_iff (deps.zip sals)
      ((sortedSet deps).map (fun k => (k, ([] : List Int))))).mpr hpz)
  rw [hres]
  show buildReport res =
    buildReport ((sortedSet deps).map (fun k => (k, deptSalaries deps sals k)))
  congr 1
  rw [fillSalaries_eq_of_some _ _ _ hres, List.map_map]
  apply List.map_congr_left
  intro k _
  simp [deptSalaries, Function.comp]

theorem deptSalaries_length (deps sals : List String) (k : String)
    (hlen : deps.length = sals.length)
    (hpz : ∀ p ∈ deps.zip sals, (parseInt p.2).isSome) :
    (deptSalaries deps sals k).length = deps.count k := by
  unfold deptSalaries
  rw [length_filterMap_of_isSome _ _ (fun q hq => hpz q (List.mem_of_mem_filter hq))]
  exact filter_zip_length_count k deps sals hlen

theorem deptSalaries_ne_nil (deps sals : List String) (k : String)
    (hlen : deps.length = sals.length) (hk : k ∈ deps)
    (hpz : ∀ p ∈ deps.zip sals, (parseInt p.2).isSome) :
    deptSalaries deps sals k ≠ [] := by
  intro he
  have hl := deptSalaries_length deps sals k hlen hpz
  rw [he] at hl
  simp only [List.length_nil] at hl
  have hpos : 0 < deps.count k := List.count_pos_iff.mpr hk
  omega

theorem get_reports_core_ok_buildReport (c : Table) (r : PyDict DeptReport)
    (hr : get_reports_core c = .ok r) :
    ∃ sbd, buildReport sbd = .ok r ∧ ∃ deps, dictKeys sbd = sortedSet deps := by
  simp only [get_reports_core] at hr
  split at hr
  · exact absurd hr (by simp)
  · split at hr
    · exact absurd hr (by simp)
    · split at hr
      · exact absurd hr (by simp)
      · rename_i x1 dk hdk1 x2 sk hsk1 x3 sbd h3
        refine ⟨sbd, hr, (dictGet? c dk).getD [], ?_⟩
        rw [fillSalaries_eq_of_some _ _ _ h3]
        have hmid : dictKeys (List.foldl (fun d k => dictInsert d k ([] : List Int)) []
            (sortedSet ((dictGet? c dk).getD []))) =
            sortedSet ((dictGet? c dk).getD []) := by
          rw [foldl_insert_nil_eq ([] : List Int) _ (nodup_sortedSet _), dictKeys_keymap]
        exact (dictKeys_map_pres _
          (fun p => (p.1, p.2 ++ List.filterMap (fun q => parseInt q.2)
            (List.filter (fun q => q.1 == p.1)
              (((dictGet? c dk).getD []).zip ((dictGet? c sk).getD [])))))
          (fun p => rfl)).trans hmid

theorem writeReportRows_eq_map (rep : PyDict DeptReport) :
    writeReportRows rep = rep.map reportRowOf := by
  induction rep with
  | nil => rfl
  | cons p rest ih => simp [writeReportRows, ih]

theorem sbdMap_nonempty (deps sals : List String)
    (hlen : deps.length = sals.length)
    (hpz : ∀ p ∈ deps.zip sals, (parseInt p.2).isSome) :
    ∀ q ∈ (sortedSet deps).map (fun k => (k, deptSalaries deps sals k)), q.2 ≠ [] := by
  intro q hq
  obtain ⟨k, hkmem, hkeq⟩ := List.mem_map.mp hq
  rw [← hkeq]
  exact deptSalaries_ne_nil deps sals k hlen ((mem_sortedSet deps k).mp hkmem) hpz

theorem zip_parse_of_col (deps sals : List String)
    (hp : ∀ s ∈ sals, (parseInt s).isSome) :
    ∀ p ∈ deps.zip sals, (parseInt p.2).isSome := by
  intro p hp2
  obtain ⟨a, b⟩ := p
  exact hp b (List.of_mem_zip hp2).2

/-- C1: on a table whose department and salary columns have equal length and
whose salary cells all parse as decimal integers, get_reports succeeds; the
keys of its report are exactly the distinct department values of the second
column (in sorted order), and the record of each department holds the minimum and
maximum of the parsed salaries of that department, the number of rows carrying
that department, and the per-department sum divided by the head count,
rounded to two decimal places. -/
theorem C1_get_reports_correct (c : Table) (dk sk : String) (deps sals : List String)
    (hdk : (dictKeys c)[1]? = some dk) (hsk : (dictKeys c).getLast? = some sk)
    (hdc : dictGet? c dk = some deps) (hsc : dictGet? c sk = some sals)
    (hlen : deps.length = sals.length)
    (hp : ∀ s ∈ sals, (parseInt s).isSome) :
    ∃ r, get_reports_core c = .ok r ∧
      dictKeys r = sortedSet deps ∧
      (∀ d, d ∈ dictKeys r ↔ d ∈ deps) ∧
      ∀ d rep, dictGet? r d = some rep →
        rep.min_salary ∈ deptSalaries deps sals d ∧
        (∀ x ∈ deptSalaries deps sals d, rep.min_salary ≤ x) ∧
        rep.max_salary ∈ deptSalaries deps sals d ∧
        (∀ x ∈ deptSalaries deps sals d, x ≤ rep.max_salary) ∧
        rep.head_count = deps.count d ∧
        rep.mean_salary =
          round2 (((deptSalaries deps sals d).sum : ℚ) / (rep.head_count : ℚ)) := by
  have hpz := zip_parse_of_col deps sals hp
  have hmain := get_reports_core_sbd c dk sk deps sals hdk hsk hdc hsc hpz
  obtain ⟨r, hr⟩ := buildReport_isOk _ (sbdMap_nonempty deps sals hlen hpz)
  obtain ⟨hkeys, hlook⟩ := buildReport_lookup _ r hr
  have hkeys2 : dictKeys r = sortedSet deps := by rw [hkeys, dictKeys_keymap]
  refine ⟨r, by rw [hmain]; exact hr, hkeys2, ?_, ?_⟩
  · intro d
    rw [hkeys2]
    exact mem_sortedSet deps d
  · intro d rep hrep
    have hd2 := hlook d
    rw [hrep, dictGet?_keymap (sortedSet deps) (fun k => deptSalaries deps sals k) d] at hd2
    by_cases hd : d ∈ sortedSet deps
    · rw [if_pos hd] at hd2
      simp only [Option.some_bind] at hd2
      have hag : aggregate (deptSalaries deps sals d) = some rep := hd2.symm
      obtain ⟨h1, h2, h3, h4, h5, h6⟩ := aggregate_spec _ _ hag
      refine ⟨h1, h2, h3, h4, ?_, ?_⟩
      · rw [h5]
        exact deptSalaries_length deps sals d hlen hpz
      · rw [h6, h5]
    · rw [if_neg hd] at hd2
      simp at hd2

/-- C2: on a table whose second (department) and third (division) columns
have equal length, get_teams succeeds; every department value of the second
column has an entry; and the entry of each department holds, without duplicates,
exactly the divisions that occur in a row together with that department. -/
theorem C2_get_teams_correct (c : Table) (dk tk : String) (deps divs : List String)
    (hdk : (dictKeys c)[1]? = some dk) (htk : (dictKeys c)[2]? = some tk)
    (hdc : dictGet? c dk = some deps) (htc : dictGet? c tk = some divs)
    (hlen : deps.length = divs.length) :
    ∃ out, get_teams_core c = .ok out ∧
      (∀ d, d ∈ dictKeys out ↔ d ∈ deps) ∧
      (∀ d ∈ deps, ∃ s, dictGet? out d = some s) ∧
      ∀ d s, dictGet? out d = some s →
        s.Nodup ∧ ∀ x, x ∈ s ↔ (d, x) ∈ deps.zip divs := by
  refine ⟨_, get_teams_core_eq c dk tk deps divs hdk htk hdc htc, ?_, ?_, ?_⟩
  · intro d
    rw [dictKeys_keymap]
    exact mem_sortedSet deps d
  · intro d hd
    apply dictGet?_isSome_of_mem
    rw [dictKeys_keymap]
    exact (mem_sortedSet deps d).mpr hd
  · intro d s hds
    rw [dictGet?_keymap (sortedSet deps)
      (fun k => (((deps.zip divs).filter (fun q => q.1 == k)).map Prod.snd).foldl setAdd []) d]
      at hds
    by_cases hd : d ∈ sortedSet deps
    · rw [if_pos hd] at hds
      have hs : s = (((deps.zip divs).filter (fun q => q.1 == d)).map Prod.snd).foldl setAdd [] :=
        (Option.some_inj.mp hds).symm
      subst hs
      constructor
      · exact nodup_foldl_setAdd _ [] List.nodup_nil
      · intro x
        rw [mem_foldl_setAdd]
        simp only [List.not_mem_nil, false_or]
        exact mem_map_snd_filter (deps.zip divs) d x
    · rw [if_neg hd] at hds
      exact absurd hds (by simp)

/-- C5: under the hypotheses of C1, the head counts of the report sum to the
number of data rows of the table. -/
theorem C5_headcount_sum (c : Table) (dk sk : String) (deps sals : List String)
    (hdk : (dictKeys c)[1]? = some dk) (hsk : (dictKeys c).getLast? = some sk)
    (hdc : dictGet? c dk = some deps) (hsc : dictGet? c sk = some sals)
    (hlen : deps.length = sals.length)
    (hp : ∀ s ∈ sals, (parseInt s).isSome) :
    ∃ r, get_reports_core c = .ok r ∧
      (r.map (fun p => p.2.head_count)).sum = deps.length := by
  have hpz := zip_parse_of_col deps sals hp
  have hmain := get_reports_core_sbd c dk sk deps sals hdk hsk hdc hsc hpz
  obtain ⟨r, hr⟩ := buildReport_isOk _ (sbdMap_nonempty deps sals hlen hpz)
  refine ⟨r, by rw [hmain]; exact hr, ?_⟩
  rw [buildReport_headcounts _ r hr, List.map_map]
  have hcongr : (sortedSet deps).map
      ((fun p : String × List Int => p.2.length) ∘ (fun k => (k, deptSalaries deps sals k))) =
      (sortedSet deps).map (fun k => deps.count k) := by
    apply List.map_congr_left
    intro k _
    exact deptSalaries_length deps sals k hlen hpz
  rw [hcongr, ((sortedSet_perm_dedup deps).map (fun k => deps.count k)).sum_eq]
  exact List.sum_map_count_dedup_eq_length deps

/-- C6: every department record of a successful report satisfies
min_salary ≤ mean_salary ≤ max_salary, and a record with head_count one has
its minimum, maximum and mean all equal to the single salary. -/
theorem C6_mean_bounds (c : Table) (r : PyDict DeptReport)
    (hr : get_reports_core c = .ok r) :
    ∀ p ∈ r,
      ((p.2.min_salary : ℚ) ≤ p.2.mean_salary ∧ p.2.mean_salary ≤ (p.2.max_salary : ℚ)) ∧
      (p.2.head_count = 1 →
        p.2.min_salary = p.2.max_salary ∧ p.2.mean_salary = (p.2.min_salary : ℚ)) := by
  obtain ⟨sbd, hb, _⟩ := get_reports_core_ok_buildReport c r hr
  intro p hp
  obtain ⟨l, _, hag⟩ := buildReport_mem sbd r hb p hp
  refine ⟨aggregate_bounds l p.2 hag, ?_⟩
  intro h1
  obtain ⟨hmem, hmin, hmemx, hmax, hlen, hmean⟩ := aggregate_spec l p.2 hag
  rw [h1] at hlen
  obtain ⟨a, rfl⟩ := List.length_eq_one.mp hlen.symm
  simp only [List.mem_singleton] at hmem hmemx
  constructor
  · rw [hmem, hmemx]
  · rw [hmean, hmem]
    have hdiv : (([a] : List Int).sum : ℚ) / ((([a] : List Int).length : Nat) : ℚ) = (a : ℚ) := by
      simp
    rw [hdiv, round2_intCast]

/-- C7: under the positional hypotheses and equal column lengths,
get_reports fails with the int() conversion error exactly when some salary
cell does not parse as an integer; when every cell parses, that error is
not raised and no fragmentary report escapes. -/
theorem C7_parse_error_iff (c : Table) (dk sk : String) (deps sals : List String)
    (hdk : (dictKeys c)[1]? = some dk) (hsk : (dictKeys c).getLast? = some sk)
    (hdc : dictGet? c dk = some deps) (hsc : dictGet? c sk = some sals)
    (hlen : deps.length = sals.length) :
    (get_reports_core c = .error .valueErrorParse ↔ ∃ s ∈ sals, parseInt s = none) := by
  rw [get_reports_core_eq c dk sk deps sals hdk hsk hdc hsc]
  cases hfill : fillSalaries (deps.zip sals)
      ((sortedSet deps).foldl (fun d k => dictInsert d k []) []) with
  | none =>
    constructor
    · intro _
      obtain ⟨p, hpm, hpn⟩ := (fillSalaries_none_iff _ _).mp hfill
      obtain ⟨a, b⟩ := p
      exact ⟨b, (List.of_mem_zip hpm).2, hpn⟩
    · intro _
      rfl
  | some sbd =>
    constructor
    · intro hc
      exact absurd hc (buildReport_ne_parseError sbd)
    · rintro ⟨s, hs, hnone⟩
      exfalso
      have hpz := (fillSalaries_isSome_iff (deps.zip sals) _).mp (by rw [hfill]; rfl)
      have hsnd : List.map Prod.snd (deps.zip sals) = sals :=
        List.map_snd_zip deps sals (le_of_eq hlen.symm)
      rw [← hsnd] at hs
      obtain ⟨p, hpm, hps⟩ := List.mem_map.mp hs
      have hsome := hpz p hpm
      rw [hps, hnone] at hsome
      simp at hsome

/-- C9: with department and salary columns of equal length, every salary
list of the accumulator built by get_reports is non-empty once the filling
loop finishes, so the empty-sequence failure of min()/max() and a division
by a zero head count are unreachable. -/
theorem C9_groups_nonempty (c : Table) (dk sk : String) (deps sals : List String)
    (hdk : (dictKeys c)[1]? = some dk) (hsk : (dictKeys c).getLast? = some sk)
    (hdc : dictGet? c dk = some deps) (hsc : dictGet? c sk = some sals)
    (hlen : deps.length = sals.length) :
    (∀ sbd, fillSalaries (deps.zip sals)
        ((sortedSet deps).foldl (fun d k => dictInsert d k []) []) = some sbd →
      ∀ p ∈ sbd, p.2 ≠ []) ∧
    get_reports_core c ≠ .error .valueErrorEmptySeq := by
  have hfirst : ∀ sbd, fillSalaries (deps.zip sals)
      ((sortedSet deps).foldl (fun d k => dictInsert d k []) []) = some sbd →
      ∀ p ∈ sbd, p.2 ≠ [] := by
    intro sbd hsbd
    have hpz : ∀ p ∈ deps.zip sals, (parseInt p.2).isSome :=
      (fillSalaries_isSome_iff _ _).mp (by rw [hsbd]; rfl)
    have heq := fillSalaries_eq_of_some _ _ _ hsbd
    rw [foldl_insert_nil_eq ([] : List Int) _ (nodup_sortedSet deps), List.map_map] at heq
    intro p hp
    rw [heq] at hp
    obtain ⟨k, hkmem, hkeq⟩ := List.mem_map.mp hp
    rw [← hkeq]
    show ([] ++ ((deps.zip sals).filter (fun q => q.1 == k)).filterMap (fun q => parseInt q.2)) ≠ []
    rw [List.nil_append]
    exact deptSalaries_ne_nil deps sals k hlen ((mem_sortedSet deps k).mp hkmem) hpz
  refine ⟨hfirst, ?_⟩
  rw [get_reports_core_eq c dk sk deps sals hdk hsk hdc hsc]
  cases hfill : fillSalaries (deps.zip sals)
      ((sortedSet deps).foldl (fun d k => dictInsert d k []) []) with
  | none => simp
  | some sbd =>
    obtain ⟨r, hr⟩ := buildReport_isOk sbd (hfirst sbd hfill)
    show buildReport sbd ≠ Except.error PyError.valueErrorEmptySeq
    rw [hr]
    simp

/-- C10: the keys of a successful report are in strictly increasing
code-point lexicographic order, and make_report_csv writes the header row
followed by exactly one row per department, in report order, with the cells
[department, min_salary, max_salary, head_count, mean_salary]. -/
theorem C10_report_rows_sorted (c : Table) (r : PyDict DeptReport)
    (hr : get_reports_core c = .ok r) :
    (dictKeys r).Sorted (fun a b => pyLe a b ∧ a ≠ b) ∧
    make_report_rows r = reportHeaderRow :: r.map (fun p =>
      [Cell.s p.1, Cell.i p.2.min_salary, Cell.i p.2.max_salary,
       Cell.n p.2.head_count, Cell.q p.2.mean_salary]) := by
  obtain ⟨sbd, hb, deps, hkeys⟩ := get_reports_core_ok_buildReport c r hr
  constructor
  · rw [(buildReport_lookup sbd r hb).1, hkeys]
    exact sortedSet_sorted_strict deps
  · unfold make_report_rows
    rw [writeReportRows_eq_map]
    rfl

/-- C3 counterexample: with header [a, b, a] and the single record
[x, y, z], the column stored under the duplicated name a is [x, z], not the
cells [z] of the last duplicate position — later duplicates do not overwrite
earlier ones. -/
theorem C3_counterexample :
    get_data_content ["a", "b", "a"] [["x", "y", "z"]] =
      some [("a", ["x", "z"]), ("b", ["y"])] ∧
    dictGet? [("a", ["x", "z"]), ("b", ["y"])] "a" ≠ some ["z"] := by
  constructor
  · decide
  · decide

/-- C3 amended: duplicate header names do not overwrite one another; the
column stored under a (possibly duplicated) header name holds, for each data
record in order, the cells of that record at every header position bearing the
name, in position order. -/
theorem C3_amended_duplicate_headers_merge (tags : List String) (rows : List Record)
    (hrows : ∀ row ∈ rows, tags.length ≤ row.length) :
    ∃ c, get_data_content tags rows = some c ∧
      ∀ tag ∈ tags, dictGet? c tag =
        some (rows.flatMap (fun row => rowCells tags tag row)) := by
  obtain ⟨c, hc, hl⟩ := get_data_content_lookup tags rows hrows
  exact ⟨c, hc, fun tag ht => by rw [hl tag, if_pos ht]⟩

/-- C4 counterexample: with a duplicated header name, one record of three
cells yields a column of length two although there is a single data record,
so the equal-length invariant of the claim fails without a distinctness
assumption on header names. -/
theorem C4_counterexample :
    get_data_content ["a", "b", "a"] [["x", "y", "z"]] =
      some [("a", ["x", "z"]), ("b", ["y"])] ∧
    (dictGet? [("a", ["x", "z"]), ("b", ["y"])] "a").map List.length = some 2 ∧
    ([["x", "y", "z"]] : List Record).length = 1 ∧ (2 : Nat) ≠ 1 := by
  refine ⟨by decide, by decide, rfl, by decide⟩

/-- C4 amended: when the header names are pairwise distinct and every record
supplies a value for every header position, the loaded table has one key per
header in header order, and the i-th column is the list of the i-th cells of the records, in row order, with length the number of records. -/
theorem C4_amended_unique_headers (tags : List String) (rows : List Record)
    (hnd : tags.Nodup) (hrows : ∀ row ∈ rows, tags.length ≤ row.length) :
    ∃ c, get_data_content tags rows = some c ∧
      dictKeys c = tags ∧
      ∀ i (hi : i < tags.length),
        dictGet? c (tags.get ⟨i, hi⟩) = some (rows.map (fun row => row.getD i "")) ∧
        (rows.map (fun row => row.getD i "")).length = rows.length := by
  obtain ⟨c, hc, hl⟩ := get_data_content_lookup tags rows hrows
  refine ⟨c, hc, ?_, ?_⟩
  · have heq := get_data_content_eq tags rows hrows
    rw [hc] at heq
    have hceq := Option.some_inj.mp heq
    rw [hceq]
    exact (dictKeys_map_pres _
      (fun p => (p.1, p.2 ++ rows.flatMap (fun row => rowCells tags p.1 row)))
      (fun p => rfl)).trans
      (by rw [foldl_insert_nil_eq ([] : List String) tags hnd, dictKeys_keymap])
  · intro i hi
    constructor
    · rw [hl (tags.get ⟨i, hi⟩), if_pos (List.get_mem tags i hi)]
      congr 1
      have hcell : (fun row => rowCells tags (tags.get ⟨i, hi⟩) row) =
          (fun row : Record => [row.getD i ""]) := by
        funext row
        have h0 := rowCellsAux_nodup row tags 0 hnd i hi
        simpa [rowCells] using h0
      rw [hcell, flatMap_singleton_map]
    · simp

/-- C8: get_data appends the .csv suffix exactly when the supplied name does
not already end in .csv; when the resolved name is absent from the file
system it fails with the FileNotFoundError whose message names that file,
and when the file is present no such error is raised and well-formed records
load into a table. -/
theorem C8_get_data_notfound (fs : String → Option (List Record)) (file : String) :
    (endsWithCsv file = true → resolveCsvName file = file) ∧
    (endsWithCsv file = false → resolveCsvName file = file ++ ".csv") ∧
    (notFoundMsg (resolveCsvName file) =
      "Нет файла с именем " ++ resolveCsvName file ++ " в локальной директории") ∧
    (fs (resolveCsvName file) = none →
      get_data fs file = .error (.fileNotFound (notFoundMsg (resolveCsvName file)))) ∧
    (∀ recs, fs (resolveCsvName file) = some recs →
      ∀ e, get_data fs file ≠ .error (.fileNotFound e)) ∧
    (∀ tags rows, fs (resolveCsvName file) = some (tags :: rows) →
      (∀ row ∈ rows, tags.length ≤ row.length) →
      ∃ t, get_data fs file = .ok t) := by
  refine ⟨?_, ?_, rfl, ?_, ?_, ?_⟩
  · intro h
    simp [resolveCsvName, h]
  · intro h
    simp [resolveCsvName, h]
  · intro h
    simp only [get_data, h]
  · intro recs h e
    simp only [get_data, h]
    cases recs with
    | nil => simp
    | cons tags rows =>
      cases hgc : get_data_content tags rows with
      | none => simp [hgc]
      | some t => simp [hgc]
  · intro tags rows h hrows
    obtain ⟨ct, hct, _⟩ := get_data_content_lookup tags rows hrows
    exact ⟨ct, by simp [get_data, h, hct]⟩

theorem round2_ofNat_200 : round2 (200 : ℚ) = 200 := by
  have h := round2_intCast 200
  norm_num at h
  exact h

theorem exampleReport_eq : get_reports_core exampleTable = .ok exampleReport := by
  have h := get_reports_core_sbd exampleTable "dept" "salary" ["A", "A", "B"]
    ["100", "300", "200"] (by decide) (by decide) (by decide) (by decide) (by decide)
  rw [h, show sortedSet ["A", "A", "B"] = ["A", "B"] from by decide]
  show buildReport [("A", deptSalaries ["A", "A", "B"] ["100", "300", "200"] "A"),
    ("B", deptSalaries ["A", "A", "B"] ["100", "300", "200"] "B")] = .ok exampleReport
  rw [show deptSalaries ["A", "A", "B"] ["100", "300", "200"] "A" = [100, 300] from by decide,
    show deptSalaries ["A", "A", "B"] ["100", "300", "200"] "B" = [200] from by decide]
  have hA : aggregate [100, 300] = some ⟨100, 300, 2, (200 : ℚ)⟩ := by
    unfold aggregate
    norm_num [DeptReport.mk.injEq, round2_ofNat_200]
  have hB : aggregate [200] = some ⟨200, 200, 1, (200 : ℚ)⟩ := by
    unfold aggregate
    norm_num [DeptReport.mk.injEq, round2_ofNat_200]
  simp [buildReport, hA, hB, exampleReport, Except.map]

/-- Witness for C1 on the example table of the specification. -/
theorem C1_witness :
    ((dictKeys exampleTable)[1]? = some "dept") ∧
    ((dictKeys exampleTable).getLast? = some "salary") ∧
    (dictGet? exampleTable "dept" = some ["A", "A", "B"]) ∧
    (dictGet? exampleTable "salary" = some ["100", "300", "200"]) ∧
    ((["A", "A", "B"] : List String).length = (["100", "300", "200"] : List String).length) ∧
    (∀ s ∈ (["100", "300", "200"] : List String), (parseInt s).isSome) ∧
    (∃ r, get_reports_core exampleTable = .ok r ∧
      dictKeys r = sortedSet ["A", "A", "B"] ∧
      (∀ d, d ∈ dictKeys r ↔ d ∈ (["A", "A", "B"] : List String)) ∧
      ∀ d rep, dictGet? r d = some rep →
        rep.min_salary ∈ deptSalaries ["A", "A", "B"] ["100", "300", "200"] d ∧
        (∀ x ∈ deptSalaries ["A", "A", "B"] ["100", "300", "200"] d, rep.min_salary ≤ x) ∧
        rep.max_salary ∈ deptSalaries ["A", "A", "B"] ["100", "300", "200"] d ∧
        (∀ x ∈ deptSalaries ["A", "A", "B"] ["100", "300", "200"] d, x ≤ rep.max_salary) ∧
        rep.head_count = (["A", "A", "B"] : List String).count d ∧
        rep.mean_salary = round2
          (((deptSalaries ["A", "A", "B"] ["100", "300", "200"] d).sum : ℚ) /
            (rep.head_count : ℚ))) :=
  ⟨by decide, by decide, by decide, by decide, by decide, by decide,
    C1_get_reports_correct exampleTable "dept" "salary" ["A", "A", "B"]
      ["100", "300", "200"] (by decide) (by decide) (by decide) (by decide)
      (by decide) (by decide)⟩

/-- Witness for C2 on the example table of the specification. -/
theorem C2_witness :
    ((dictKeys exampleTable)[1]? = some "dept") ∧
    ((dictKeys exampleTable)[2]? = some "team") ∧
    (dictGet? exampleTable "dept" = some ["A", "A", "B"]) ∧
    (dictGet? exampleTable "team" = some ["X", "Y", "Z"]) ∧
    ((["A", "A", "B"] : List String).length = (["X", "Y", "Z"] : List String).length) ∧
    (∃ out, get_teams_core exampleTable = .ok out ∧
      (∀ d, d ∈ dictKeys out ↔ d ∈ (["A", "A", "B"] : List String)) ∧
      (∀ d ∈ (["A", "A", "B"] : List String), ∃ s, dictGet? out d = some s) ∧
      ∀ d s, dictGet? out d = some s →
        s.Nodup ∧ ∀ x, x ∈ s ↔
          (d, x) ∈ (["A", "A", "B"] : List String).zip ["X", "Y", "Z"]) :=
  ⟨by decide, by decide, by decide, by decide, by decide,
    C2_get_teams_correct exampleTable "dept" "team" ["A", "A", "B"] ["X", "Y", "Z"]
      (by decide) (by decide) (by decide) (by decide) (by decide)⟩

/-- Witness for C5 on the example table of the specification. -/
theorem C5_witness :
    ((dictKeys exampleTable)[1]? = some "dept") ∧
    ((dictKeys exampleTable).getLast? = some "salary") ∧
    (dictGet? exampleTable "dept" = some ["A", "A", "B"]) ∧
    (dictGet? exampleTable "salary" = some ["100", "300", "200"]) ∧
    ((["A", "A", "B"] : List String).length = (["100", "300", "200"] : List String).length) ∧
    (∀ s ∈ (["100", "300", "200"] : List String), (parseInt s).isSome) ∧
    (∃ r, get_reports_core exampleTable = .ok r ∧
      (r.map (fun p => p.2.head_count)).sum = (["A", "A", "B"] : List String).length) :=
  ⟨by decide, by decide, by decide, by decide, by decide, by decide,
    C5_headcount_sum exampleTable "dept" "salary" ["A", "A", "B"] ["100", "300", "200"]
      (by decide) (by decide) (by decide) (by decide) (by decide) (by decide)⟩

/-- Witness for C6 on the example table of the specification. -/
theorem C6_witness :
    get_reports_core exampleTable = .ok exampleReport ∧
    ∀ p ∈ exampleReport,
      ((p.2.min_salary : ℚ) ≤ p.2.mean_salary ∧ p.2.mean_salary ≤ (p.2.max_salary : ℚ)) ∧
      (p.2.head_count = 1 →
        p.2.min_salary = p.2.max_salary ∧ p.2.mean_salary = (p.2.min_salary : ℚ)) :=
  ⟨exampleReport_eq, C6_mean_bounds exampleTable exampleReport exampleReport_eq⟩

/-- Witness for C7 on a table with a non-numeric salary cell. -/
theorem C7_witness :
    ((dictKeys badTable)[1]? = some "dept") ∧
    ((dictKeys badTable).getLast? = some "salary") ∧
    (dictGet? badTable "dept" = some ["A"]) ∧
    (dictGet? badTable "salary" = some ["abc"]) ∧
    ((["A"] : List String).length = (["abc"] : List String).length) ∧
    (get_reports_core badTable = .error .valueErrorParse ↔
      ∃ s ∈ (["abc"] : List String), parseInt s = none) :=
  ⟨by decide, by decide, by decide, by decide, by decide,
    C7_parse_error_iff badTable "dept" "salary" ["A"] ["abc"]
      (by decide) (by decide) (by decide) (by decide) (by decide)⟩

/-- Witness for C9 on the example table of the specification. -/
theorem C9_witness :
    ((dictKeys exampleTable)[1]? = some "dept") ∧
    ((dictKeys exampleTable).getLast? = some "salary") ∧
    (dictGet? exampleTable "dept" = some ["A", "A", "B"]) ∧
    (dictGet? exampleTable "salary" = some ["100", "300", "200"]) ∧
    ((["A", "A", "B"] : List String).length = (["100", "300", "200"] : List String).length) ∧
    ((∀ sbd, fillSalaries ((["A", "A", "B"] : List String).zip ["100", "300", "200"])
        ((sortedSet ["A", "A", "B"]).foldl (fun d k => dictInsert d k []) []) = some sbd →
      ∀ p ∈ sbd, p.2 ≠ []) ∧
    get_reports_core exampleTable ≠ .error .valueErrorEmptySeq) :=
  ⟨by decide, by decide, by decide, by decide, by decide,
    C9_groups_nonempty exampleTable "dept" "salary" ["A", "A", "B"] ["100", "300", "200"]
      (by decide) (by decide) (by decide) (by decide) (by decide)⟩

/-- Witness for C10 on the example table of the specification. -/
theorem C10_witness :
    get_reports_core exampleTable = .ok exampleReport ∧
    ((dictKeys exampleReport).Sorted (fun a b => pyLe a b ∧ a ≠ b) ∧
    make_report_rows exampleReport = reportHeaderRow :: exampleReport.map (fun p =>
      [Cell.s p.1, Cell.i p.2.min_salary, Cell.i p.2.max_salary,
       Cell.n p.2.head_count, Cell.q p.2.mean_salary])) :=
  ⟨exampleReport_eq, C10_report_rows_sorted exampleTable exampleReport exampleReport_eq⟩

/-- Witness for the amended C3 on a duplicated header. -/
theorem C3_witness :
    (∀ row ∈ ([["x", "y", "z"]] : List Record), (["a", "b", "a"] : List String).length ≤ row.length) ∧
    (∃ c, get_data_content ["a", "b", "a"] [["x", "y", "z"]] = some c ∧
      ∀ tag ∈ (["a", "b", "a"] : List String), dictGet? c tag =
        some (([["x", "y", "z"]] : List Record).flatMap
          (fun row => rowCells ["a", "b", "a"] tag row))) :=
  ⟨by decide,
    C3_amended_duplicate_headers_merge ["a", "b", "a"] [["x", "y", "z"]] (by decide)⟩

/-- Witness for the amended C4 on the example file of the specification. -/
theorem C4_witness :
    (["id", "dept", "team", "salary"] : List String).Nodup ∧
    (∀ row ∈ ([["1", "A", "X", "100"], ["2", "A", "Y", "300"], ["3", "B", "Z", "200"]] : List Record),
      (["id", "dept", "team", "salary"] : List String).length ≤ row.length) ∧
    (∃ c, get_data_content ["id", "dept", "team", "salary"]
        [["1", "A", "X", "100"], ["2", "A", "Y", "300"], ["3", "B", "Z", "200"]] = some c ∧
      dictKeys c = ["id", "dept", "team", "salary"] ∧
      ∀ i (hi : i < (["id", "dept", "team", "salary"] : List String).length),
        dictGet? c ((["id", "dept", "team", "salary"] : List String).get ⟨i, hi⟩) =
          some (([["1", "A", "X", "100"], ["2", "A", "Y", "300"], ["3", "B", "Z", "200"]] : List Record).map
            (fun row => row.getD i "")) ∧
        (([["1", "A", "X", "100"], ["2", "A", "Y", "300"], ["3", "B", "Z", "200"]] : List Record).map
          (fun row => row.getD i "")).length =
          ([["1", "A", "X", "100"], ["2", "A", "Y", "300"], ["3", "B", "Z", "200"]] : List Record).length) :=
  ⟨by decide, by decide,
    C4_amended_unique_headers ["id", "dept", "team", "salary"]
      [["1", "A", "X", "100"], ["2", "A", "Y", "300"], ["3", "B", "Z", "200"]]
      (by decide) (by decide)⟩

/-- Witness for C8: a missing file and a present file. -/
theorem C8_witness :
    get_data (fun _ => none) "data" = .error (.fileNotFound (notFoundMsg "data.csv")) ∧
    (∃ t, get_data (fun n => if n = "tb.csv" then some [["id", "dept"], ["1", "A"]] else none)
      "tb" = .ok t) := by
  constructor
  · have h := (C8_get_data_notfound (fun _ => none) "data").2.2.2.1 rfl
    rwa [show resolveCsvName "data" = "data.csv" from by decide] at h
  · exact (C8_get_data_notfound
      (fun n => if n = "tb.csv" then some [["id", "dept"], ["1", "A"]] else none) "tb").2.2.2.2.2
      ["id", "dept"] [["1", "A"]] (by decide) (by decide)
